import Mathlib

/-!
Shallow embedding of the json_parser repository (src/lib.rs).

The Rust parser walks a peekable character iterator.  Here the iterator state
is the list of characters not yet consumed: every reader takes the remaining
input and returns, on success, its result together with the input left over.
Errors abort the whole parse in the source (the readers propagate them
immediately), so an error result carries no leftover input.

Machine numerics: the source stores numbers as f64 obtained from the standard
library string-to-float conversion.  The conversion is embedded by its
documented grammar, and the IEEE rounding step is abstracted: a Number carries
the exact rational value denoted by the accepted literal.  Every literal
appearing in a theorem below denotes a small integer, where the two agree
exactly.  Bytes are embedded as naturals reduced mod 256 where they are used.
-/

/-- Error enumeration of the parser, mirroring the Rust enum field for field. -/
inductive Error where
  | InvalidValue
  | UnclosedString
  | UnclosedList
  | MissingSeparator
  | UnexpectedEndOfFile
  | UnclosedObject
deriving DecidableEq

/-- The Json value tree, mirroring the Rust enum.  Object keys are character
lists; a Number carries the exact rational read from the literal. -/
inductive Json where
  | List (xs : List Json)
  | Object (entries : List (List Char × Json))
  | String (s : List Char)
  | Number (q : ℚ)
  | Bool (b : Bool)
  | Null

/-- The Unicode White_Space class, which is what the Rust method
char::is_whitespace tests. -/
def rustIsWhitespace (c : Char) : Bool :=
  let n := c.toNat
  if (0x9 ≤ n ∧ n ≤ 0xD) ∨ n = 0x20 ∨ n = 0x85 ∨ n = 0xA0 ∨ n = 0x1680 ∨
      (0x2000 ≤ n ∧ n ≤ 0x200A) ∨ n = 0x2028 ∨ n = 0x2029 ∨ n = 0x202F ∨
      n = 0x205F ∨ n = 0x3000 then
    true
  else false

/-- The character class consumed by the number reader:
matches!(ch, '0'..='9' | '.' | '+' | '-'). -/
def numChar (c : Char) : Bool :=
  if ('0' ≤ c ∧ c ≤ '9') ∨ c = '.' ∨ c = '+' ∨ c = '-' then true else false

/-- Value of a run of decimal digits. -/
def digitsToNat (ds : List Char) : Nat :=
  ds.foldl (fun a c => a * 10 + (c.toNat - 48)) 0

/-- Exact rational value of a decimal literal: sign, digit string read as the
mantissa, number of digits after the point, and decimal exponent. -/
def ratOfDecimal (neg : Bool) (mant fracLen : Nat) (ex : Int) : ℚ :=
  let sm : Int := if neg then -(mant : Int) else (mant : Int)
  let e : Int := ex - (fracLen : Int)
  if 0 ≤ e then mkRat (sm * (10 : Int) ^ e.toNat) 1
  else mkRat sm ((10 : Nat) ^ ((-e).toNat))

/-- Optional exponent tail of the float grammar: either the input is exhausted
or it must be e/E, an optional sign and a nonempty digit run reaching the end.
Continuation of parseF64 below. -/
def parseF64Exp (s : List Char) (neg : Bool) (mant fracLen : Nat) : Option ℚ :=
  match s with
  | [] => some (ratOfDecimal neg mant fracLen 0)
  | c :: r =>
    if c = 'e' ∨ c = 'E' then
      let signed : Bool × List Char :=
        match r with
        | '-' :: rr => (true, rr)
        | '+' :: rr => (false, rr)
        | _ => (false, r)
      let eds := signed.2.takeWhile Char.isDigit
      if eds.length = 0 then none
      else if (signed.2.dropWhile Char.isDigit).length ≠ 0 then none
      else
        some (ratOfDecimal neg mant fracLen
          (if signed.1 then -(digitsToNat eds : Int) else (digitsToNat eds : Int)))
    else none

/-- The Rust standard conversion str::parse for f64, embedded by its
documented grammar: an optional sign, then digits with an optional point
placed anywhere as long as at least one digit is present, then an optional
exponent; the whole input must be consumed.  The inf/infinity/nan branches of
the documented grammar are omitted: the number reader only ever passes text
drawn from the class digits/point/sign, which contains no letters, so those
branches are unreachable from this program.  The result is the exact rational
value of the literal (IEEE rounding abstracted, see the header note). -/
def parseF64 (s : List Char) : Option ℚ :=
  let signed : Bool × List Char :=
    match s with
    | '-' :: r => (true, r)
    | '+' :: r => (false, r)
    | _ => (false, s)
  let intPart := signed.2.takeWhile Char.isDigit
  let s2 := signed.2.dropWhile Char.isDigit
  match s2 with
  | '.' :: r =>
    let fracPart := r.takeWhile Char.isDigit
    let s3 := r.dropWhile Char.isDigit
    if intPart.length + fracPart.length = 0 then none
    else parseF64Exp s3 signed.1 (digitsToNat (intPart ++ fracPart)) fracPart.length
  | _ =>
    if intPart.length = 0 then none
    else parseF64Exp s2 signed.1 (digitsToNat intPart) 0

/-- The stateful scan inside read_string: peeking_take_while with the escape
flag.  Returns the collected characters, the flag as last updated by the
closure (the closure also runs on the character it refuses), and the input
from the refused character on (empty when the scan ran off the end). -/
def stringScan : List Char → Bool → List Char × Bool × List Char
  | [], escaped => ([], escaped, [])
  | c :: cs, escaped =>
    let keepReading := escaped || c != '\"'
    let escaped2 := !escaped && c == '\\'
    if keepReading then
      let r := stringScan cs escaped2
      (c :: r.1, r.2.1, r.2.2)
    else ([], escaped2, c :: cs)

/-- Json::read_string.  The first character must be a quote; the scan then
collects up to an unescaped quote, which must be present. -/
def read_string (s : List Char) : Except Error (List Char × List Char) :=
  match s with
  | '\"' :: cs =>
    let r := stringScan cs false
    match r.2.2 with
    | '\"' :: rest => if r.2.1 then .error .UnclosedString else .ok (r.1, rest)
    | _ :: _ => .error .UnclosedString
    | [] => .error .UnclosedString
  | _ => .error .InvalidValue

/-- Consumption and count semantics of the Rust chain
iter.zip(pattern).filter(eq).take(n).count() used by the boolean and null
readers.  Zip forms pairs while both sides are nonempty, pulling from the
character iterator first (so when the pattern runs out first, one extra
character is consumed); filter keeps the equal pairs; take stops pulling once
n pairs have been kept.  Returns the count and the input left over. -/
def zipFilterTakeCount : List Char → List Char → Nat → Nat × List Char
  | cs, _, 0 => (0, cs)
  | [], _, _ + 1 => (0, [])
  | _ :: cs, [], _ + 1 => (0, cs)
  | c :: cs, p :: ps, n + 1 =>
    if c = p then
      let r := zipFilterTakeCount cs ps n
      (r.1 + 1, r.2)
    else zipFilterTakeCount cs ps (n + 1)

/-- Json::read_bool: consume the first character; after t the next three
characters must match rue, after f the next four must match alse. -/
def read_bool (s : List Char) : Except Error (Bool × List Char) :=
  match s with
  | 'f' :: rest =>
    let r := zipFilterTakeCount rest (['a', 'l', 's', 'e']) 4
    if r.1 = 4 then .ok (false, r.2) else .error .InvalidValue
  | 't' :: rest =>
    let r := zipFilterTakeCount rest (['r', 'u', 'e']) 3
    if r.1 = 3 then .ok (true, r.2) else .error .InvalidValue
  | _ => .error .InvalidValue

/-- Json::read_null: the next four characters must match null (the leading n
is not consumed beforehand, unlike read_bool). -/
def read_null (s : List Char) : Except Error (Unit × List Char) :=
  let r := zipFilterTakeCount s (['n', 'u', 'l', 'l']) 4
  if r.1 = 4 then .ok ((), r.2) else .error .InvalidValue

/-- Json::read_number: take the maximal run of characters from the numeric
class (the character after the run is not consumed), reject an empty run,
then hand the run to the float conversion. -/
def read_number (s : List Char) : Except Error (ℚ × List Char) :=
  let ds := s.takeWhile numChar
  let rest := s.dropWhile numChar
  if ds.length = 0 then .error .InvalidValue
  else
    match parseF64 ds with
    | none => .error .InvalidValue
    | some q => .ok (q, rest)

/-- Json::skip_whitespace: drop the maximal leading whitespace run without
consuming the first non-whitespace character. -/
def skip_whitespace (s : List Char) : List Char :=
  s.dropWhile rustIsWhitespace

mutual

/-- Json::parse_value: dispatch on the peeked first character.  The fuel
argument only drives the mutual recursion (the Rust recursion is bounded by
the input because every reader consumes at least one character per nesting
step); the top-level entry passes more fuel than any input can use up, see
from_chars. -/
def parse_value : Nat → List Char → Except Error (Json × List Char)
  | 0, _ => .error .UnexpectedEndOfFile
  | fuel + 1, s =>
    match s with
    | [] => .error .UnexpectedEndOfFile
    | c :: _ =>
      if c = '\"' then
        match read_string s with
        | .error e => .error e
        | .ok (str, rest) => .ok (.String str, rest)
      else if c = 't' ∨ c = 'f' then
        match read_bool s with
        | .error e => .error e
        | .ok (b, rest) => .ok (.Bool b, rest)
      else if c = 'n' then
        match read_null s with
        | .error e => .error e
        | .ok (_, rest) => .ok (.Null, rest)
      else if ('0' ≤ c ∧ c ≤ '9') ∨ c = '.' ∨ c = '-' ∨ c = '+' then
        match read_number s with
        | .error e => .error e
        | .ok (q, rest) => .ok (.Number q, rest)
      else if c = '[' then
        match read_list fuel s with
        | .error e => .error e
        | .ok (xs, rest) => .ok (.List xs, rest)
      else if c = '{' then
        match read_object fuel s with
        | .error e => .error e
        | .ok (entries, rest) => .ok (.Object entries, rest)
      else .error .InvalidValue

/-- Json::read_list, head: the first character must be an opening bracket,
then the element loop runs. -/
def read_list : Nat → List Char → Except Error (List Json × List Char)
  | 0, _ => .error .UnexpectedEndOfFile
  | fuel + 1, s =>
    match s with
    | '[' :: rest => read_list_loop fuel [] rest
    | _ => .error .InvalidValue

/-- Json::read_list, loop body: skip whitespace; a closing bracket ends the
list; otherwise parse one element, then find the first non-whitespace
character (consuming it): a bracket ends, a comma continues, anything else is
MissingSeparator, end of input is UnclosedList. -/
def read_list_loop : Nat → List Json → List Char → Except Error (List Json × List Char)
  | 0, _, _ => .error .UnexpectedEndOfFile
  | fuel + 1, acc, s =>
    match skip_whitespace s with
    | ']' :: rest => .ok (acc, rest)
    | s1 =>
      match parse_value fuel s1 with
      | .error e => .error e
      | .ok (v, s2) =>
        match skip_whitespace s2 with
        | ']' :: rest => .ok (acc ++ [v], rest)
        | ',' :: rest => read_list_loop fuel (acc ++ [v]) rest
        | _ :: _ => .error .MissingSeparator
        | [] => .error .UnclosedList

/-- Json::read_object, head: the first character must be an opening brace,
then the member loop runs. -/
def read_object : Nat → List Char → Except Error (List (List Char × Json) × List Char)
  | 0, _ => .error .UnexpectedEndOfFile
  | fuel + 1, s =>
    match s with
    | '{' :: rest => read_object_loop fuel [] rest
    | _ => .error .InvalidValue

/-- Json::read_object, loop body: skip whitespace; a closing brace ends the
object; otherwise read a string key, skip whitespace, require a colon (the
character is consumed whatever it is), skip whitespace, parse the value, push
the pair, skip whitespace and consume one character: a brace ends, a comma
continues, anything else is MissingSeparator, end of input is
UnclosedObject. -/
def read_object_loop : Nat → List (List Char × Json) → List Char →
    Except Error (List (List Char × Json) × List Char)
  | 0, _, _ => .error .UnexpectedEndOfFile
  | fuel + 1, acc, s =>
    match skip_whitespace s with
    | '}' :: rest => .ok (acc, rest)
    | s1 =>
      match read_string s1 with
      | .error e => .error e
      | .ok (name, s2) =>
        match skip_whitespace s2 with
        | ':' :: s3 =>
          match parse_value fuel (skip_whitespace s3) with
          | .error e => .error e
          | .ok (v, s4) =>
            match skip_whitespace s4 with
            | '}' :: rest => .ok (acc ++ [(name, v)], rest)
            | ',' :: rest => read_object_loop fuel (acc ++ [(name, v)]) rest
            | _ :: _ => .error .MissingSeparator
            | [] => .error .UnclosedObject
        | _ => .error .MissingSeparator

end

/-- Json::from_chars: skip leading whitespace, dispatch, and drop whatever
input the value did not consume.  The fuel 3 * length + 3 over-approximates
the recursion: along any call chain at most three fuel decrements happen per
consumed character (value dispatch to reader head, reader head to loop, loop
to element dispatch, each after the bracket or separator in question was
consumed), so the fuel-out branches are never reached from here. -/
def from_chars (s : List Char) : Except Error Json :=
  match parse_value (3 * s.length + 3) (skip_whitespace s) with
  | .error e => .error e
  | .ok (v, _) => .ok v

/-- The FromStr instance (str::parse, called parse_from_text by the spec)
delegates to from_chars on the text's characters. -/
def from_str (s : List Char) : Except Error Json :=
  from_chars s

/-- char::from_u32: valid Unicode scalar values only. -/
def charFromU32 (v : Nat) : Option Char :=
  if v.isValidChar then some (Char.ofNat v) else none

/-- Loop body of Chars::next: up to four bytes are accumulated big-endian,
testing validity after each one; the first valid scalar is emitted together
with the bytes not yet consumed. -/
def chars_next_go : Nat → Nat → List Nat → Option (Char × List Nat)
  | _, 0, _ => none
  | _, _ + 1, [] => none
  | value, k + 1, b :: bs =>
    let value2 := (value <<< 8) ||| (b % 256)
    match charFromU32 value2 with
    | some c => some (c, bs)
    | none => chars_next_go value2 k bs

/-- Chars::next: the accumulator starts at zero and at most four bytes are
taken. -/
def chars_next (bs : List Nat) : Option (Char × List Nat) :=
  chars_next_go 0 4 bs

/-- The character sequence the Chars adapter presents to the parser: repeated
chars_next until it yields nothing.  Fuel by the byte count suffices because
every emitted character consumes at least one byte. -/
def chars_decode : Nat → List Nat → List Char
  | 0, _ => []
  | f + 1, bs =>
    match chars_next bs with
    | none => []
    | some (c, rest) => c :: chars_decode f rest

/-- Json::from_bytes: run the byte-to-character adapter, then from_chars. -/
def from_bytes (bs : List Nat) : Except Error Json :=
  from_chars (chars_decode bs.length bs)

/-- Encoding of text as UTF-8 bytes, stated from the UTF-8 specification;
used only to say, in the refinement claim about from_bytes, which text a byte
sequence encodes.  One to four bytes per scalar by its magnitude. -/
def utf8EncodeChar (c : Char) : List Nat :=
  let n := c.toNat
  if n < 0x80 then [n]
  else if n < 0x800 then [0xC0 + n / 64, 0x80 + n % 64]
  else if n < 0x10000 then [0xE0 + n / 4096, 0x80 + (n / 64) % 64, 0x80 + n % 64]
  else [0xF0 + n / 262144, 0x80 + (n / 4096) % 64, 0x80 + (n / 64) % 64, 0x80 + n % 64]

/-- UTF-8 encoding of a character sequence. -/
def utf8Encode (cs : List Char) : List Nat :=
  (cs.map utf8EncodeChar).flatten

/-! Helper lemmas about the readers, shared by the claim theorems below. -/

/-- The remaining input is a terminal segment of the original input. -/
def SuffixOf (rest s : List Char) : Prop :=
  ∃ u, s = u ++ rest

theorem suffixOf_refl (s : List Char) : SuffixOf s s :=
  ⟨[], rfl⟩

theorem suffixOf_trans {r t s : List Char} (h1 : SuffixOf r t) (h2 : SuffixOf t s) :
    SuffixOf r s := by
  obtain ⟨u1, hu1⟩ := h1
  obtain ⟨u2, hu2⟩ := h2
  exact ⟨u2 ++ u1, by rw [hu2, hu1, List.append_assoc]⟩

theorem suffixOf_dropWhile (p : Char → Bool) (s : List Char) :
    SuffixOf (s.dropWhile p) s :=
  ⟨s.takeWhile p, (List.takeWhile_append_dropWhile p s).symm⟩

theorem suffixOf_cons {rest s : List Char} (c : Char) (h : SuffixOf rest s) :
    SuffixOf rest (c :: s) := by
  obtain ⟨u, hu⟩ := h
  exact ⟨c :: u, by rw [hu]; rfl⟩

theorem suffixOf_tail (c : Char) (s : List Char) : SuffixOf s (c :: s) :=
  ⟨[c], rfl⟩

theorem suffixOf_skip (s : List Char) : SuffixOf (skip_whitespace s) s :=
  suffixOf_dropWhile rustIsWhitespace s

/-- The scan of read_string splits its input into the collected characters
and the unconsumed remainder. -/
theorem stringScan_append : ∀ (cs : List Char) (esc : Bool),
    (stringScan cs esc).1 ++ (stringScan cs esc).2.2 = cs := by
  intro cs
  induction cs with
  | nil => intro esc; simp [stringScan]
  | cons c cs ih =>
    intro esc
    simp only [stringScan]
    split
    · simpa using ih (!esc && c == '\\')
    · simp

/-- read_string succeeding on input s means s was the quote, then the
collected text, then a quote, then the leftover: nothing is altered or
dropped in between. -/
theorem read_string_split {s res rest : List Char}
    (h : read_string s = .ok (res, rest)) : s = '\"' :: (res ++ '\"' :: rest) := by
  cases s with
  | nil => exact absurd h (by simp [read_string])
  | cons c cs =>
    simp only [read_string] at h
    split at h
    case _ cs3 hceq =>
      rw [hceq]
      split at h
      case _ rest2 heq2 =>
        split at h
        · exact absurd h (by simp)
        · rw [Except.ok.injEq, Prod.mk.injEq] at h
          rw [← h.1, ← h.2]
          have hs := stringScan_append cs3 false
          rw [heq2] at hs
          exact congrArg (List.cons '\"') hs.symm
      · exact absurd h (by simp)
      · exact absurd h (by simp)
    · exact absurd h (by simp)

/-- Whatever read_string leaves over is a terminal segment of its input. -/
theorem read_string_suffix {s res rest : List Char}
    (h : read_string s = .ok (res, rest)) : SuffixOf rest s :=
  ⟨'\"' :: (res ++ ['\"']), by rw [read_string_split h]; simp⟩

/-- The leftover of the zip/filter/take/count chain is a terminal segment of
the character input. -/
theorem zipFilterTakeCount_suffix : ∀ (ps cs : List Char) (n : Nat),
    SuffixOf (zipFilterTakeCount cs ps n).2 cs := by
  intro ps
  induction ps with
  | nil =>
    intro cs n
    cases n with
    | zero => simpa [zipFilterTakeCount] using suffixOf_refl cs
    | succ n =>
      cases cs with
      | nil => simpa [zipFilterTakeCount] using suffixOf_refl ([] : List Char)
      | cons c cs => simpa [zipFilterTakeCount] using suffixOf_tail c cs
  | cons p ps ih =>
    intro cs n
    cases n with
    | zero => simpa [zipFilterTakeCount] using suffixOf_refl cs
    | succ n =>
      cases cs with
      | nil => simpa [zipFilterTakeCount] using suffixOf_refl ([] : List Char)
      | cons c cs =>
        simp only [zipFilterTakeCount]
        split
        · simpa using suffixOf_cons c (ih cs n)
        · simpa using suffixOf_cons c (ih cs (n + 1))

theorem read_bool_suffix {s rest : List Char} {b : Bool}
    (h : read_bool s = .ok (b, rest)) : SuffixOf rest s := by
  cases s with
  | nil => exact absurd h (by simp [read_bool])
  | cons c cs =>
    simp only [read_bool] at h
    split at h
    case _ cs3 hceq =>
      rw [hceq]
      split at h
      · rw [Except.ok.injEq, Prod.mk.injEq] at h
        exact h.2 ▸ suffixOf_cons 'f' (zipFilterTakeCount_suffix _ cs3 4)
      · exact absurd h (by simp)
    case _ cs3 hceq =>
      rw [hceq]
      split at h
      · rw [Except.ok.injEq, Prod.mk.injEq] at h
        exact h.2 ▸ suffixOf_cons 't' (zipFilterTakeCount_suffix _ cs3 3)
      · exact absurd h (by simp)
    · exact absurd h (by simp)

theorem read_null_suffix {s rest : List Char} {u : Unit}
    (h : read_null s = .ok (u, rest)) : SuffixOf rest s := by
  simp only [read_null] at h
  split at h
  · rw [Except.ok.injEq, Prod.mk.injEq] at h
    exact h.2 ▸ zipFilterTakeCount_suffix _ s 4
  · exact absurd h (by simp)

theorem read_number_rest {s rest : List Char} {q : ℚ}
    (h : read_number s = .ok (q, rest)) : rest = s.dropWhile numChar := by
  simp only [read_number] at h
  split at h
  · exact absurd h (by simp)
  · split at h
    · exact absurd h (by simp)
    · rw [Except.ok.injEq, Prod.mk.injEq] at h
      exact h.2.symm

theorem read_number_suffix {s rest : List Char} {q : ℚ}
    (h : read_number s = .ok (q, rest)) : SuffixOf rest s :=
  (read_number_rest h) ▸ suffixOf_dropWhile numChar s

/-- A head on which dropWhile stopped fails the predicate. -/
theorem dropWhile_head_false {p : Char → Bool} {c : Char} {cs : List Char} :
    ∀ {l : List Char}, l.dropWhile p = c :: cs → p c = false := by
  intro l
  induction l with
  | nil => intro h; exact absurd h (by simp)
  | cons a l ih =>
    intro h
    rw [List.dropWhile_cons] at h
    split at h
    next _ => exact ih h
    next hpa => cases h; simpa using hpa

/-- A terminal-segment fact transported along an equation about
skip_whitespace. -/
theorem suffixOf_of_skip_eq {s t : List Char} (h : skip_whitespace s = t) :
    SuffixOf t s :=
  h ▸ suffixOf_skip s

/-- Every function of the mutual parser leaves over a terminal segment of the
input it was given: nothing is skipped past, reordered or re-read. -/
theorem parse_suffix : ∀ fuel : Nat,
    (∀ s v rest, parse_value fuel s = .ok (v, rest) → SuffixOf rest s) ∧
    (∀ s xs rest, read_list fuel s = .ok (xs, rest) → SuffixOf rest s) ∧
    (∀ acc s xs rest, read_list_loop fuel acc s = .ok (xs, rest) → SuffixOf rest s) ∧
    (∀ s es rest, read_object fuel s = .ok (es, rest) → SuffixOf rest s) ∧
    (∀ acc s es rest, read_object_loop fuel acc s = .ok (es, rest) → SuffixOf rest s) := by
  intro fuel
  induction fuel with
  | zero =>
    refine ⟨?_, ?_, ?_, ?_, ?_⟩
    · intro s v rest h
      exact absurd h (by simp [parse_value])
    · intro s xs rest h
      exact absurd h (by simp [read_list])
    · intro acc s xs rest h
      exact absurd h (by simp [read_list_loop])
    · intro s es rest h
      exact absurd h (by simp [read_object])
    · intro acc s es rest h
      exact absurd h (by simp [read_object_loop])
  | succ fuel ih =>
    obtain ⟨ihp, ihl, ihll, iho, ihol⟩ := ih
    refine ⟨?_, ?_, ?_, ?_, ?_⟩
    · intro s v rest h
      cases s with
      | nil => exact absurd h (by simp [parse_value])
      | cons c cs =>
        simp only [parse_value] at h
        split at h
        · split at h
          · exact absurd h (by simp)
          case _ str rest2 hrd =>
            rw [Except.ok.injEq, Prod.mk.injEq] at h
            exact h.2 ▸ read_string_suffix hrd
        · split at h
          · split at h
            · exact absurd h (by simp)
            case _ b2 rest2 hrd =>
              rw [Except.ok.injEq, Prod.mk.injEq] at h
              exact h.2 ▸ read_bool_suffix hrd
          · split at h
            · split at h
              · exact absurd h (by simp)
              case _ u2 rest2 hrd =>
                rw [Except.ok.injEq, Prod.mk.injEq] at h
                exact h.2 ▸ read_null_suffix hrd
            · split at h
              · split at h
                · exact absurd h (by simp)
                case _ q2 rest2 hrd =>
                  rw [Except.ok.injEq, Prod.mk.injEq] at h
                  exact h.2 ▸ read_number_suffix hrd
              · split at h
                · split at h
                  · exact absurd h (by simp)
                  case _ xs2 rest2 hrd =>
                    rw [Except.ok.injEq, Prod.mk.injEq] at h
                    exact h.2 ▸ ihl _ _ _ hrd
                · split at h
                  · split at h
                    · exact absurd h (by simp)
                    case _ es2 rest2 hrd =>
                      rw [Except.ok.injEq, Prod.mk.injEq] at h
                      exact h.2 ▸ iho _ _ _ hrd
                  · exact absurd h (by simp)
    · intro s xs rest h
      cases s with
      | nil => exact absurd h (by simp [read_list])
      | cons c cs =>
        simp only [read_list] at h
        split at h
        case _ cs3 hceq =>
          rw [hceq]
          exact suffixOf_cons '[' (ihll _ _ _ _ h)
        · exact absurd h (by simp)
    · intro acc s xs rest h
      simp only [read_list_loop] at h
      split at h
      case _ rest2 hskip =>
        rw [Except.ok.injEq, Prod.mk.injEq] at h
        exact h.2 ▸ suffixOf_trans (suffixOf_tail ']' rest2) (suffixOf_of_skip_eq hskip)
      case _ s1 hskip =>
        split at h
        · exact absurd h (by simp)
        case _ v s2 hpv =>
          have hs2 : SuffixOf s2 s :=
            suffixOf_trans (ihp _ _ _ hpv) (suffixOf_skip s)
          split at h
          case _ rest2 hskip2 =>
            rw [Except.ok.injEq, Prod.mk.injEq] at h
            exact h.2 ▸ suffixOf_trans (suffixOf_tail ']' rest2)
              (suffixOf_trans (suffixOf_of_skip_eq hskip2) hs2)
          case _ rest2 hskip2 =>
            exact suffixOf_trans (ihll _ _ _ _ h)
              (suffixOf_trans (suffixOf_tail ',' rest2)
                (suffixOf_trans (suffixOf_of_skip_eq hskip2) hs2))
          · exact absurd h (by simp)
          · exact absurd h (by simp)
    · intro s es rest h
      cases s with
      | nil => exact absurd h (by simp [read_object])
      | cons c cs =>
        simp only [read_object] at h
        split at h
        case _ cs3 hceq =>
          rw [hceq]
          exact suffixOf_cons '{' (ihol _ _ _ _ h)
        · exact absurd h (by simp)
    · intro acc s es rest h
      simp only [read_object_loop] at h
      split at h
      case _ rest2 hskip =>
        rw [Except.ok.injEq, Prod.mk.injEq] at h
        exact h.2 ▸ suffixOf_trans (suffixOf_tail '}' rest2) (suffixOf_of_skip_eq hskip)
      case _ s1 hskip =>
        split at h
        · exact absurd h (by simp)
        case _ name s2 hrs =>
          have hs2 : SuffixOf s2 s :=
            suffixOf_trans (read_string_suffix hrs) (suffixOf_skip s)
          split at h
          case _ s3 hskip2 =>
            have hs3 : SuffixOf s3 s :=
              suffixOf_trans (suffixOf_tail ':' s3)
                (suffixOf_trans (suffixOf_of_skip_eq hskip2) hs2)
            split at h
            · exact absurd h (by simp)
            case _ v s4 hpv =>
              have hs4 : SuffixOf s4 s :=
                suffixOf_trans (ihp _ _ _ hpv)
                  (suffixOf_trans (suffixOf_skip s3) hs3)
              split at h
              case _ rest2 hskip3 =>
                rw [Except.ok.injEq, Prod.mk.injEq] at h
                exact h.2 ▸ suffixOf_trans (suffixOf_tail '}' rest2)
                  (suffixOf_trans (suffixOf_of_skip_eq hskip3) hs4)
              case _ rest2 hskip3 =>
                exact suffixOf_trans (ihol _ _ _ _ h)
                  (suffixOf_trans (suffixOf_tail ',' rest2)
                    (suffixOf_trans (suffixOf_of_skip_eq hskip3) hs4))
              · exact absurd h (by simp)
              · exact absurd h (by simp)
          · exact absurd h (by simp)

/-- The object loop only ever appends to its accumulator: entries already
collected are preserved, in order, in front of whatever follows. -/
theorem read_object_loop_append : ∀ (fuel : Nat) (acc : List (List Char × Json))
    (s : List Char) (res : List (List Char × Json)) (rest : List Char),
    read_object_loop fuel acc s = .ok (res, rest) → ∃ t, res = acc ++ t := by
  intro fuel
  induction fuel with
  | zero =>
    intro acc s res rest h
    exact absurd h (by simp [read_object_loop])
  | succ fuel ih =>
    intro acc s res rest h
    simp only [read_object_loop] at h
    split at h
    · rw [Except.ok.injEq, Prod.mk.injEq] at h
      exact ⟨[], by rw [← h.1]; simp⟩
    · split at h
      · exact absurd h (by simp)
      case _ name s2 hrs =>
        split at h
        case _ s3 hskip2 =>
          split at h
          · exact absurd h (by simp)
          case _ v s4 hpv =>
            split at h
            · rw [Except.ok.injEq, Prod.mk.injEq] at h
              exact ⟨[(name, v)], h.1.symm⟩
            · obtain ⟨t, ht⟩ := ih _ _ _ _ h
              exact ⟨(name, v) :: t, by rw [ht]; simp⟩
            · exact absurd h (by simp)
            · exact absurd h (by simp)
        · exact absurd h (by simp)

/-- Char.ofNat inverts toNat below the surrogate range. -/
theorem char_ofNat_toNat {b : Nat} (h : b < 55296) : (Char.ofNat b).toNat = b := by
  have hv : b.isValidChar := Or.inl h
  simp [Char.ofNat, hv, Char.ofNatAux, Char.toNat, UInt32.toNat, BitVec.toNat_ofNatLt]

/-- On a byte, the adapter's accumulator test succeeds immediately: every
value below 256 is a valid scalar, so one byte yields one character. -/
theorem chars_next_cons (b : Nat) (bs : List Nat) (hb : b < 256) :
    chars_next (b :: bs) = some (Char.ofNat b, bs) := by
  have hb2 : b % 256 = b := Nat.mod_eq_of_lt hb
  have hv : Nat.isValidChar b := Or.inl (by omega)
  simp [chars_next, chars_next_go, charFromU32, Nat.zero_shiftLeft, Nat.zero_or, hb2, hv]

/-- The adapter decodes a byte sequence as Latin-1: one character per byte. -/
theorem chars_decode_latin1 : ∀ (bs : List Nat), (∀ b ∈ bs, b < 256) →
    chars_decode bs.length bs = bs.map Char.ofNat := by
  intro bs
  induction bs with
  | nil => intro _; simp [chars_decode]
  | cons b bs ih =>
    intro h
    have hb : b < 256 := h b (by simp)
    simp only [List.length_cons, chars_decode, chars_next_cons b bs hb, List.map_cons]
    rw [ih (fun x hx => h x (List.mem_cons_of_mem b hx))]

/-- UTF-8 is the identity on ASCII code points. -/
theorem utf8Encode_ascii : ∀ (bs : List Nat), (∀ b ∈ bs, b < 128) →
    utf8Encode (bs.map Char.ofNat) = bs := by
  intro bs
  induction bs with
  | nil => intro _; simp [utf8Encode]
  | cons b bs ih =>
    intro h
    have hb : b < 128 := h b (by simp)
    have ht : (Char.ofNat b).toNat = b := char_ofNat_toNat (by omega)
    have he : utf8EncodeChar (Char.ofNat b) = [b] := by
      simp only [utf8EncodeChar, ht]
      rw [if_pos (by omega)]
    have hrest := ih (fun x hx => h x (List.mem_cons_of_mem b hx))
    simp only [utf8Encode, List.map_cons, List.flatten_cons] at hrest ⊢
    rw [he, hrest]
    rfl

/-! The claims. -/

/-- Claim C1, counterexample: on the trailing-comma input the parse does not
fail with InvalidValue at all (it succeeds, see the amended theorem). -/
theorem c1_trailing_comma_counterexample :
    from_chars ("[1, 2,]".toList) ≠ .error .InvalidValue := by
  intro h
  have h1 : from_chars ("[1, 2,]".toList) = .ok (Json.List ([Json.Number 1, Json.Number 2])) := rfl
  rw [h1] at h
  exact Except.noConfusion h

/-- Claim C1, amended: parsing a list with a trailing comma succeeds, because
each pass of the element loop first checks for a closing bracket; the list
[1, 2,] parses to the two-element list. -/
theorem c1_trailing_comma_accepted :
    from_chars ("[1, 2,]".toList) = .ok (Json.List ([Json.Number 1, Json.Number 2])) := rfl

/-- Claim C2, counterexample: the top-level parse of 1e10 does not fail; it
returns a successful Number (the number one). -/
theorem c2_exponent_counterexample :
    from_chars ("1e10".toList) = .ok (Json.Number 1) := rfl

/-- Claim C2, amended: on 1e10 the number reader stops before the e (which is
outside its consumable class), so the top-level parse succeeds with the
truncated value one, not the value ten billion; the exponent suffix is left
as ignored trailing text. -/
theorem c2_exponent_truncated :
    from_chars ("1e10".toList) = .ok (Json.Number 1) ∧
    read_number ("1e10".toList) = .ok (1, ("e10".toList)) ∧
    Json.Number 1 ≠ Json.Number 10000000000 := by
  refine ⟨rfl, rfl, ?_⟩
  intro h
  injection h with h2
  exact absurd h2 (by norm_num)

/-- Claim C3, counterexample: on the input consisting of one opening bracket
the parse fails with UnexpectedEndOfFile, not UnclosedList. -/
theorem c3_unclosed_counterexample :
    from_chars ("[".toList) = .error .UnexpectedEndOfFile ∧
    Error.UnexpectedEndOfFile ≠ Error.UnclosedList := by
  exact ⟨rfl, by decide⟩

/-- Claim C3, amended: of the three unterminated lists, only the one ending
right after an element yields UnclosedList (input ended while scanning for
the separator); when input ends where an element or the closing bracket was
expected, the element dispatch reports UnexpectedEndOfFile instead. -/
theorem c3_unclosed_errors :
    from_chars ("[1".toList) = .error .UnclosedList ∧
    from_chars ("[".toList) = .error .UnexpectedEndOfFile ∧
    from_chars ("[1,".toList) = .error .UnexpectedEndOfFile := by
  exact ⟨rfl, rfl, rfl⟩

/-- Claim C4, counterexample: a valid non-ASCII UTF-8 byte sequence (the
two-byte encoding of e-acute between quotes) decodes through the adapter as
two Latin-1 characters, so from_bytes disagrees with from_chars on the text
those bytes encode. -/
theorem c4_utf8_counterexample :
    utf8Encode (['\"', 'é', '\"']) = [34, 195, 169, 34] ∧
    from_bytes ([34, 195, 169, 34]) = .ok (Json.String (['Ã', '©'])) ∧
    from_chars (['\"', 'é', '\"']) = .ok (Json.String (['é'])) ∧
    Json.String (['Ã', '©']) ≠ Json.String (['é']) := by
  refine ⟨rfl, rfl, rfl, ?_⟩
  intro h
  injection h with h2
  exact absurd h2 (by decide)

/-- Claim C4, amended: the agreement holds on the ASCII range (where UTF-8 is
one byte per character): for ASCII bytes, from_bytes equals from_chars on the
decoded characters, and those characters UTF-8-encode back to the bytes. -/
theorem c4_ascii_agreement (bs : List Nat) (h : ∀ b ∈ bs, b < 128) :
    from_bytes bs = from_chars (bs.map Char.ofNat) ∧
    utf8Encode (bs.map Char.ofNat) = bs := by
  constructor
  · simp only [from_bytes]
    rw [chars_decode_latin1 bs (fun b hb => Nat.lt_trans (h b hb) (by norm_num))]
  · exact utf8Encode_ascii bs h

/-- Claim C4, witness: the agreement at the ASCII bytes of the text true. -/
theorem c4_ascii_agreement_witness :
    from_bytes ([116, 114, 117, 101]) = from_chars (([116, 114, 117, 101]).map Char.ofNat) ∧
    utf8Encode (([116, 114, 117, 101]).map Char.ofNat) = [116, 114, 117, 101] :=
  c4_ascii_agreement ([116, 114, 117, 101]) (by decide)

/-- Claim C5: the byte adapter is Latin-1 decoding: each byte passes the
validity test at the first accumulation step, so chars_next emits exactly one
character whose code point is the byte, and a sequence of bytes decodes to
the character sequence of equal length; no trailing bytes are ever dropped. -/
theorem c5_byte_adapter_latin1 :
    (∀ b bs, b < 256 → chars_next (b :: bs) = some (Char.ofNat b, bs) ∧
      (Char.ofNat b).toNat = b) ∧
    (∀ bs : List Nat, (∀ b ∈ bs, b < 256) → chars_decode bs.length bs = bs.map Char.ofNat) :=
  ⟨fun b bs hb => ⟨chars_next_cons b bs hb, char_ofNat_toNat (by omega)⟩,
    chars_decode_latin1⟩

/-- Claim C5, witness: one step of the adapter at the byte 200. -/
theorem c5_byte_adapter_latin1_witness :
    chars_next ([200, 50]) = some (Char.ofNat 200, [50]) ∧ (Char.ofNat 200).toNat = 200 :=
  c5_byte_adapter_latin1.1 200 ([50]) (by decide)

/-- Claim C6: an object with a duplicate key keeps both entries in source
order, and in general the member loop only appends to what it has already
collected (no merging, overwriting or reordering). -/
theorem c6_duplicate_keys_preserved :
    from_chars (['{'] ++ ("\"a\":1,\"a\":2".toList) ++ ['}']) =
      .ok (Json.Object ([(['a'], Json.Number 1), (['a'], Json.Number 2)])) ∧
    (∀ fuel acc s res rest, read_object_loop fuel acc s = .ok (res, rest) →
      ∃ t, res = acc ++ t) :=
  ⟨rfl, read_object_loop_append⟩

/-- Claim C6, witness: the append property at a concrete one-member object
tail. -/
theorem c6_duplicate_keys_preserved_witness :
    ∃ t, ([(['a'], Json.Number 1)]) = ([] : List (List Char × Json)) ++ t :=
  c6_duplicate_keys_preserved.2 9 [] (("\"a\":1".toList) ++ ['}'])
    ([(['a'], Json.Number 1)]) [] (by rfl)

/-- Claim C7: whenever the scan for the closing quote runs off the end of the
input (no unescaped quote is ever found, including a dangling final escape),
the top-level parse of the string fails with UnclosedString. -/
theorem c7_unclosed_string (s : List Char) (h : (stringScan s false).2.2 = []) :
    from_chars ('\"' :: s) = .error .UnclosedString := by
  have hws : rustIsWhitespace '\"' = false := rfl
  have hskip : skip_whitespace ('\"' :: s) = '\"' :: s := by
    simp [skip_whitespace, List.dropWhile_cons, hws]
  have hrs : read_string ('\"' :: s) = .error .UnclosedString := by
    simp only [read_string]
    rw [h]
  have hn : 3 * (('\"' :: s).length) + 3 = (3 * (('\"' :: s).length) + 2) + 1 := rfl
  simp only [from_chars]
  rw [hskip, hn]
  simp [parse_value, hrs]

/-- Claim C7, witness: the unterminated string of the spec, and an input
ending on a dangling escape. -/
theorem c7_unclosed_string_witness :
    from_chars ('\"' :: ("unterminated".toList)) = .error .UnclosedString ∧
    from_chars ('\"' :: ("abc\\".toList)) = .error .UnclosedString :=
  ⟨c7_unclosed_string ("unterminated".toList) (by decide),
    c7_unclosed_string ("abc\\".toList) (by decide)⟩

/-- Claim C8: a successfully read string is returned verbatim: the input was
exactly quote, the returned characters unchanged (escapes kept as raw
characters), quote, leftover.  Concretely, an escaped quote does not end the
string, while an escaped backslash followed by a quote does. -/
theorem c8_string_verbatim :
    (∀ s res rest, read_string s = .ok (res, rest) → s = '\"' :: (res ++ '\"' :: rest)) ∧
    read_string ("\"a\\\"b\"".toList) = .ok (("a\\\"b".toList), []) ∧
    read_string ("\"a\\\\\"x".toList) = .ok (("a\\\\".toList), ['x']) :=
  ⟨fun _ _ _ h => read_string_split h, rfl, rfl⟩

/-- Claim C8, witness: the verbatim decomposition at a concrete string. -/
theorem c8_string_verbatim_witness :
    ("\"ab\"c".toList) = '\"' :: (("ab".toList) ++ '\"' :: ['c']) :=
  c8_string_verbatim.1 ("\"ab\"c".toList) ("ab".toList) (['c']) (by rfl)

/-- Claim C9, counterexample: the input 12 is the well-formed value 1
followed by the character 2, yet the parse returns 12, not the value parsed
from that prefix: trailing characters can extend the final token. -/
theorem c9_trailing_counterexample :
    from_chars (['1']) = .ok (Json.Number 1) ∧
    from_chars (['1', '2']) = .ok (Json.Number 12) ∧
    Json.Number 12 ≠ Json.Number 1 := by
  refine ⟨rfl, rfl, ?_⟩
  intro h
  injection h with h2
  exact absurd h2 (by norm_num)

/-- Claim C9, amended: whatever input the value dispatch leaves over is
dropped without being examined, so a value followed by garbage that does not
extend the value's final token parses to that value (for example true
followed by garbage); but the garbage begins only at the token boundary. -/
theorem c9_trailing_ignored :
    (∀ s v rest, parse_value (3 * s.length + 3) (skip_whitespace s) = .ok (v, rest) →
      from_chars s = .ok v) ∧
    from_chars ("true garbage".toList) = .ok (Json.Bool true) := by
  constructor
  · intro s v rest h
    simp [from_chars, h]
  · rfl

/-- Claim C9, witness: the discard property at the concrete input. -/
theorem c9_trailing_ignored_witness :
    from_chars ("true garbage".toList) = .ok (Json.Bool true) :=
  c9_trailing_ignored.1 ("true garbage".toList) (Json.Bool true) (" garbage".toList) (by rfl)

/-- Claim C10: a successful parse_value consumes an initial segment of its
input (the leftover is a terminal segment); the number reader stops exactly
at the first character outside its class without consuming it; and in the
list 1 2 the space after the 1 is still at the head of the leftover. -/
theorem c10_exact_consumption :
    (∀ fuel s v rest, parse_value fuel s = .ok (v, rest) → ∃ u, s = u ++ rest) ∧
    (∀ s q rest, read_number s = .ok (q, rest) →
      rest = s.dropWhile numChar ∧ ∀ c cs2, rest = c :: cs2 → numChar c = false) ∧
    parse_value 9 ("1 2]".toList) = .ok (Json.Number 1, ([' ', '2', ']'])) := by
  refine ⟨?_, ?_, rfl⟩
  · intro fuel s v rest h
    exact (parse_suffix fuel).1 s v rest h
  · intro s q rest h
    refine ⟨read_number_rest h, ?_⟩
    intro c cs2 hr
    exact dropWhile_head_false ((read_number_rest h).symm.trans hr)

/-- Claim C10, witness: the consumed segment at the concrete input. -/
theorem c10_exact_consumption_witness :
    ∃ u, ("1 2]".toList) = u ++ ([' ', '2', ']']) :=
  c10_exact_consumption.1 9 ("1 2]".toList) (Json.Number 1) ([' ', '2', ']']) (by rfl)
